import Mathlib

/-
Verification of the effection structured-concurrency runtime.

The development shallowly embeds the pieces of the code base that the
properties below talk about: the host timer table used by sleep, the
future controller, and models of the Frame / Scope / Task / race /
subscription / channel machinery described by the specification.
-/

set_option autoImplicit false

namespace Effection

/-- Terminal value of a computation or future: completed with a value,
errored with an error code, or halted by cancellation. -/
inductive Value (T : Type) where
  | completed (value : T)
  | errored (error : Nat)
  | halted
  deriving Repr, DecidableEq

/-- A pending host timer: its identity and the scheduled duration.
Firing the timer invokes the resolve callback of the perform invocation
that scheduled it. -/
structure Timer where
  id : Nat
  duration : Nat
  deriving Repr, DecidableEq

/-- Host timer table: a monotone fresh-id counter and the list of pending
timers, in order of scheduling. -/
structure Host where
  nextId : Nat
  pending : List Timer
  deriving Repr, DecidableEq

/-- Model of the host setTimeout: allocate a fresh timer id, append the
timer to the pending table, and hand the id back to the caller. -/
def Host.setTimeout (h : Host) (duration : Nat) : Host × Nat :=
  ({ nextId := h.nextId + 1, pending := h.pending ++ [⟨h.nextId, duration⟩] }, h.nextId)

/-- Model of the host clearTimeout: discard the pending timer with the
given id, leaving every other timer in place. -/
def Host.clearTimeout (h : Host) (i : Nat) : Host :=
  { h with pending := h.pending.filter (fun t => t.id != i) }

/-- Model of a timer firing: when a pending timer with the given id
exists, it is removed and its callback is invoked (the Bool records
whether the resolve callback ran). -/
def Host.fire (h : Host) (i : Nat) : Host × Bool :=
  if h.pending.any (fun t => t.id == i) then
    ({ h with pending := h.pending.filter (fun t => t.id != i) }, true)
  else
    (h, false)

/-- Well-formed host: every pending timer id was allocated in the past,
so it is below the fresh-id counter. -/
def Host.WF (h : Host) : Prop :=
  ∀ t ∈ h.pending, t.id < h.nextId

instance (h : Host) : Decidable h.WF :=
  inferInstanceAs (Decidable (∀ t ∈ h.pending, t.id < h.nextId))

/-- An operation in the v1 callback style: perform receives the resolve
callback (left implicit: the scheduled timer is the one that resumes it)
and returns the updated host together with the timer id captured by the
abort thunk. -/
structure Operation where
  perform : Host → Host × Nat

/-- Shallow embedding of sleep(duration): perform schedules a single host
timer for the resolve callback and the returned abort thunk is
clearTimeout of the captured timer id. -/
def sleep (duration : Nat) : Operation :=
  ⟨fun h => h.setTimeout duration⟩

/-- Run the abort thunk returned by sleep.perform: clearTimeout of the
timer id it captured. -/
def runCanceller (i : Nat) (h : Host) : Host :=
  h.clearTimeout i

/-- State of a one-shot future slot: written exactly once. -/
inductive FutureState (T : Type) where
  | pending
  | resolved (value : Value T)
  deriving Repr, DecidableEq

/-- Modelled from the spec: createFuture resolution respects the
at-most-one-outcome invariant, so resolve writes the slot only while it
is still pending (the missing piece is the future module of
effection core, absent from the sources). -/
def FutureState.resolve {T : Type} : FutureState T → Value T → FutureState T
  | .pending, v => .resolved v
  | .resolved w, _ => .resolved w

/-- Whether a future slot has settled. -/
def FutureState.settled {T : Type} : FutureState T → Bool
  | .pending => false
  | .resolved _ => true

/-- Observable interactions with the FutureLike wrapped by a future
controller: whether consume was called on it and whether any abort or
cancellation was requested of it. -/
structure WrappedFuture where
  consumed : Bool
  aborted : Bool
  deriving Repr, DecidableEq

/-- State of a controller made by createFutureController: the wrapped
FutureLike and the inner future handed to the task. -/
structure FutureControllerState (T : Type) where
  wrapped : WrappedFuture
  inner : FutureState T
  deriving Repr, DecidableEq

/-- Shallow embedding of start from future-controller.ts: consume the
wrapped future so that its settlement resolves the inner future. -/
def futureControllerStart {T : Type} (s : FutureControllerState T) : FutureControllerState T :=
  { s with wrapped := { s.wrapped with consumed := true } }

/-- Shallow embedding of halt from future-controller.ts: resolve the
inner future with the halted state; the wrapped future is not touched. -/
def futureControllerHalt {T : Type} (s : FutureControllerState T) : FutureControllerState T :=
  { s with inner := s.inner.resolve Value.halted }

/-- Instruction of a Frame computation, restricted to the part the
cleanup-order property observes: register a cleanup action (identified by
a label) or return. -/
inductive FrameInstr where
  | registerCleanup (label : Nat)
  | ret
  deriving Repr, DecidableEq

/-- Labels of the cleanups a computation registers, in registration
order, up to its first return (or the end of the computation). -/
def registeredCleanups : List FrameInstr → List Nat
  | [] => []
  | .ret :: _ => []
  | .registerCleanup l :: rest => l :: registeredCleanups rest

/-- Modelled from the spec: draining a cleanup stack of a Frame pops and
runs the top entry repeatedly, yielding the execution trace (the Frame
and its teardown loop are absent from the sources). -/
def drainStack : List Nat → List Nat
  | [] => []
  | c :: rest => c :: drainStack rest

/-- Modelled from the spec: run a Frame computation against a cleanup
stack; register-cleanup pushes onto the stack and resumes, and on return
the stack drains, producing the observed cleanup execution trace. -/
def runFrameCleanups : List FrameInstr → List Nat → List Nat
  | [], stack => drainStack stack
  | .ret :: _, stack => drainStack stack
  | .registerCleanup l :: rest, stack => runFrameCleanups rest (l :: stack)

/-- Modelled from the spec: a closing Scope halts its children serially,
always taking the most recently inserted remaining child first; the
result is the order in which the children (given in insertion order) are
halted (the Scope teardown loop is absent from the sources). -/
def scopeHaltOrder : List Nat → List Nat
  | [] => []
  | c :: rest => scopeHaltOrder rest ++ [c]

/-- Script of a scope child used by the scheduler model: sleep for a
duration and then return, halt itself, or throw an error. -/
inductive ChildProg where
  | sleepReturn (t : Nat)
  | sleepHalt (t : Nat)
  | sleepThrow (t : Nat) (e : Nat)
  deriving Repr, DecidableEq

/-- Instant at which a child script terminates. -/
def ChildProg.time : ChildProg → Nat
  | .sleepReturn t => t
  | .sleepHalt t => t
  | .sleepThrow t _ => t

/-- Whether a child script terminates by throwing. -/
def ChildProg.isThrow : ChildProg → Bool
  | .sleepThrow _ _ => true
  | _ => false

/-- A scope child: its frame id paired with its script. -/
abbrev Child := Nat × ChildProg

/-- Pick the child that terminates first (ties go to the first listed
child), returning it together with the remaining siblings in insertion
order. -/
def selectEarliest : List Child → Option (Child × List Child)
  | [] => none
  | c :: rest =>
    match selectEarliest rest with
    | none => some (c, [])
    | some (best, others) =>
      if best.2.time < c.2.time then some (best, c :: others) else some (c, rest)

/-- Observable event of a scope run. -/
inductive ScopeEvent where
  | childReturned (id : Nat)
  | childHalted (id : Nat)
  | childErrored (id : Nat) (e : Nat)
  | scopeClosing
  | siblingHalted (id : Nat)
  | errorInjected (e : Nat)
  deriving Repr, DecidableEq

/-- Modelled from the spec: discrete-event run of the children of a
scope (the Scope scheduler is absent from the sources). Children settle
in order of their termination instants; a returned or self-halted child
leaves its siblings untouched, while an errored child closes the scope,
halts every remaining sibling in reverse insertion order, and only then
injects the error into the driving Frame. The result is the event trace
paired with the error the scope escalates, if any. -/
def runScope : Nat → List Child → List ScopeEvent × Option Nat
  | 0, _ => ([], none)
  | fuel + 1, cs =>
    match selectEarliest cs with
    | none => ([], none)
    | some ((cid, prog), others) =>
      match prog with
      | .sleepReturn _ =>
        let r := runScope fuel others
        (ScopeEvent.childReturned cid :: r.1, r.2)
      | .sleepHalt _ =>
        let r := runScope fuel others
        (ScopeEvent.childHalted cid :: r.1, r.2)
      | .sleepThrow _ e =>
        (ScopeEvent.childErrored cid e :: ScopeEvent.scopeClosing ::
          ((scopeHaltOrder (others.map Prod.fst)).map ScopeEvent.siblingHalted
            ++ [ScopeEvent.errorInjected e]), some e)

/-- Modelled from the spec: child failure policy of a Scope. The terminal
outcome of a child escalates an error to the parent only when the child
errored; returned and halted children leave the parent untouched. -/
def onChildExit {T : Type} : Value T → Option Nat
  | .errored e => some e
  | .completed _ => none
  | .halted => none

/-- An arm of a race: the instant at which it settles, and the outcome it
settles with. -/
structure RaceArm where
  time : Nat
  out : Value Nat
  deriving Repr, DecidableEq

/-- Index of the first arm attaining the minimal settle time, the winner
of the race under the first-listed tie-break. -/
def firstMinIdx : List RaceArm → Option Nat
  | [] => none
  | a :: rest =>
    match firstMinIdx rest with
    | none => some 0
    | some j =>
      if (rest.getD j ⟨0, Value.halted⟩).time < a.time then some (j + 1) else some 0

/-- Schedule the sleep timer of every arm, in listed order, returning the
updated host and the captured timer ids. -/
def scheduleArms : List RaceArm → Host → Host × List Nat
  | [], h => (h, [])
  | a :: rest, h =>
    let p := h.setTimeout a.time
    let q := scheduleArms rest p.1
    (q.1, p.2 :: q.2)

/-- Run the abort thunk of every listed timer id, as the halt of the
fresh child scope of a race does for its frames. -/
def cancelAll (ids : List Nat) (h : Host) : Host :=
  ids.foldl Host.clearTimeout h

/-- Modelled from the spec: race (absent from the sources). Every arm is
spawned in a fresh child scope and schedules its timer; the first arm to
settle wins, its timer fires, and the child scope is halted, invoking the
abort thunk of every arm. The winning outcome is returned. -/
def raceRun (arms : List RaceArm) (h : Host) : Option (Value Nat) × Host :=
  let p := scheduleArms arms h
  match firstMinIdx arms with
  | none => (none, p.1)
  | some w =>
    let f := p.1.fire (p.2.getD w 0)
    (some ((arms.getD w ⟨0, Value.halted⟩).out), cancelAll p.2 f.1)

/-- Timers created when the arms of a race are scheduled against a host
whose fresh-id counter starts at the given value. -/
def armTimers : List RaceArm → Nat → List Timer
  | [], _ => []
  | a :: rest, n => ⟨n, a.time⟩ :: armTimers rest (n + 1)

/-- Timer ids captured by the abort thunks of the arms of a race. -/
def armIds : List RaceArm → Nat → List Nat
  | [], _ => []
  | _ :: rest, n => n :: armIds rest (n + 1)

/-- Result of one iterator step: an element, or the terminal value. -/
inductive IterRes (T R : Type) where
  | val (value : T)
  | fin (value : R)
  deriving Repr, DecidableEq

/-- The done flag of an iterator result. -/
def IterRes.done {T R : Type} : IterRes T R → Bool
  | .val _ => false
  | .fin _ => true

/-- State of a Subscription: the buffered elements and, once the source
closed, the terminal value. -/
structure SubscriptionState (T R : Type) where
  buffer : List T
  closed : Option R
  deriving Repr, DecidableEq

/-- Modelled from the spec: next() on a Subscription (the implementation
behind the Subscription interface is absent from the sources). It
consumes the head of the buffer when one exists; on an empty buffer of a
closed subscription it yields the terminal result and leaves the state
unchanged; on an empty buffer of an open subscription the caller parks as
the waiter, modelled as none. -/
def SubscriptionState.next {T R : Type} :
    SubscriptionState T R → Option (IterRes T R × SubscriptionState T R)
  | ⟨v :: rest, c⟩ => some (.val v, ⟨rest, c⟩)
  | ⟨[], some r⟩ => some (.fin r, ⟨[], some r⟩)
  | ⟨[], none⟩ => none

/-- Iterate next a further given number of times after a first call,
returning the last result together with the state it left behind. -/
def iterNext {T R : Type} (s : SubscriptionState T R) :
    Nat → Option (IterRes T R × SubscriptionState T R)
  | 0 => s.next
  | n + 1 =>
    match s.next with
    | some (_, s1) => iterNext s1 n
    | none => none

/-- A broadcast Channel: a fresh-id counter for subscribers and the
currently-attached subscribers, each with its private queue. -/
structure Channel (T : Type) where
  nextSubId : Nat
  subs : List (Nat × List T)
  deriving Repr, DecidableEq

/-- Modelled from the spec: send(v) enqueues v into the queue of every
currently-attached subscriber and nowhere else (the Channel
implementation is absent from the sources). -/
def Channel.send {T : Type} (c : Channel T) (v : T) : Channel T :=
  { c with subs := c.subs.map (fun s => (s.1, s.2 ++ [v])) }

/-- Modelled from the spec: attach a new subscriber with an empty queue,
returning the channel and the id of the new subscriber. -/
def Channel.subscribe {T : Type} (c : Channel T) : Channel T × Nat :=
  ({ nextSubId := c.nextSubId + 1, subs := c.subs ++ [(c.nextSubId, [])] }, c.nextSubId)

/-- Queue of the subscriber with the given id, when attached. -/
def Channel.lookupSub {T : Type} (c : Channel T) (i : Nat) : Option (List T) :=
  (c.subs.find? (fun s => s.1 == i)).map Prod.snd

/-- Send a whole list of values, in order. -/
def Channel.sendAll {T : Type} (c : Channel T) (vs : List T) : Channel T :=
  vs.foldl Channel.send c

/-- Well-formed channel: every attached subscriber id was allocated in
the past, so it is below the fresh-id counter. -/
def Channel.WF {T : Type} (c : Channel T) : Prop :=
  ∀ s ∈ c.subs, s.1 < c.nextSubId

instance {T : Type} (c : Channel T) : Decidable c.WF :=
  inferInstanceAs (Decidable (∀ s ∈ c.subs, s.1 < c.nextSubId))

/-- State of a scope in its lifecycle. -/
inductive ScopeState where
  | opened
  | closing
  | closedSt
  deriving Repr, DecidableEq

/-- Modelled from the spec: externally visible state of a Task (the Task
implementation is absent from the sources): the state of its root scope,
the remaining children of that scope in insertion order, and the future
that the awaitable returned by halt settles through. -/
structure TaskState where
  scopeState : ScopeState
  children : List Nat
  haltFuture : FutureState Unit
  deriving Repr, DecidableEq

/-- Modelled from the spec: Task.halt (the Task implementation is absent
from the sources). On a scope that is not yet closed it tears the scope
down, halting the children in reverse insertion order, and resolves the
halt future once the root scope is fully closed; on an already closed
scope it is a no-op. The returned list is the observable halt trace of
this call. -/
def taskHalt (t : TaskState) : TaskState × List Nat :=
  match t.scopeState with
  | .closedSt => ({ t with haltFuture := t.haltFuture.resolve Value.halted }, [])
  | _ =>
    ({ scopeState := .closedSt, children := [],
       haltFuture := t.haltFuture.resolve Value.halted }, scopeHaltOrder t.children)

/-! Theorems. -/

theorem filter_ne_id_of_wf (l : List Timer) (n : Nat) (hl : ∀ t ∈ l, t.id < n) :
    l.filter (fun t => t.id != n) = l := by
  apply List.filter_eq_self.mpr
  intro a ha
  simp [bne_iff_ne]
  exact Nat.ne_of_lt (hl a ha)

theorem any_eq_id_of_wf (l : List Timer) (n : Nat) (hl : ∀ t ∈ l, t.id < n) :
    l.any (fun t => t.id == n) = false := by
  simp only [List.any_eq_false]
  intro a ha
  simp [Nat.ne_of_lt (hl a ha)]

/-- C3: sleep(ms) is a wait whose registrar schedules exactly one host
timer with the requested duration (which, when it fires, invokes the
resume callback), and whose abort thunk cancels exactly that timer, so
that after the abort thunk runs before the timer fires, the resume
callback is never invoked. -/
theorem sleep_schedules_one_timer_and_abort_cancels
    (ms : Nat) (h h1 : Host) (i : Nat) (hwf : h.WF)
    (hp : (sleep ms).perform h = (h1, i)) :
    h1.pending = h.pending ++ [⟨i, ms⟩]
    ∧ (h1.fire i).2 = true
    ∧ (runCanceller i h1).pending = h.pending
    ∧ ((runCanceller i h1).fire i).2 = false := by
  simp only [sleep, Host.setTimeout, Prod.mk.injEq] at hp
  obtain ⟨rfl, rfl⟩ := hp
  refine ⟨rfl, ?_, ?_, ?_⟩
  · simp [Host.fire]
  · simp [runCanceller, Host.clearTimeout, List.filter_append,
      filter_ne_id_of_wf h.pending h.nextId hwf]
  · simp [runCanceller, Host.clearTimeout, Host.fire, List.filter_append,
      filter_ne_id_of_wf h.pending h.nextId hwf,
      any_eq_id_of_wf h.pending h.nextId hwf]

/-- Witness for C3 at a concrete host and duration. -/
theorem sleep_schedules_one_timer_and_abort_cancels_witness :
    (Host.mk 1 [⟨0, 5⟩]).pending = (Host.mk 0 []).pending ++ [⟨0, 5⟩]
    ∧ ((Host.mk 1 [⟨0, 5⟩]).fire 0).2 = true
    ∧ (runCanceller 0 (Host.mk 1 [⟨0, 5⟩])).pending = (Host.mk 0 []).pending
    ∧ ((runCanceller 0 (Host.mk 1 [⟨0, 5⟩])).fire 0).2 = false :=
  sleep_schedules_one_timer_and_abort_cancels 5 ⟨0, []⟩ ⟨1, [⟨0, 5⟩]⟩ 0
    (by decide) rfl

/-- C9: the operation value returned by sleep is stateless and reusable:
two invocations of its perform method schedule distinct fresh timers, and
the canceller of the first invocation removes only the timer of the first
invocation, leaving the timer of the second invocation pending and still
able to fire its resume callback. -/
theorem sleep_perform_reusable
    (ms1 ms2 : Nat) (h h1 h2 : Host) (i1 i2 : Nat) (hwf : h.WF)
    (e1 : (sleep ms1).perform h = (h1, i1))
    (e2 : (sleep ms2).perform h1 = (h2, i2)) :
    i1 ≠ i2
    ∧ (runCanceller i1 h2).pending = h.pending ++ [⟨i2, ms2⟩]
    ∧ ((runCanceller i1 h2).fire i2).2 = true := by
  simp only [sleep, Host.setTimeout, Prod.mk.injEq] at e1 e2
  obtain ⟨rfl, rfl⟩ := e1
  obtain ⟨rfl, rfl⟩ := e2
  refine ⟨by simp, ?_, ?_⟩
  · simp [runCanceller, Host.clearTimeout, List.filter_append,
      filter_ne_id_of_wf h.pending h.nextId hwf]
  · simp [runCanceller, Host.clearTimeout, Host.fire, List.filter_append,
      filter_ne_id_of_wf h.pending h.nextId hwf]

/-- Witness for C9 at a concrete host and two durations. -/
theorem sleep_perform_reusable_witness :
    (0 : Nat) ≠ 1
    ∧ (runCanceller 0 (Host.mk 2 [⟨0, 7⟩, ⟨1, 9⟩])).pending
        = (Host.mk 0 []).pending ++ [⟨1, 9⟩]
    ∧ ((runCanceller 0 (Host.mk 2 [⟨0, 7⟩, ⟨1, 9⟩])).fire 1).2 = true :=
  sleep_perform_reusable 7 9 ⟨0, []⟩ ⟨1, [⟨0, 7⟩]⟩ ⟨2, [⟨0, 7⟩, ⟨1, 9⟩]⟩ 0 1
    (by decide) rfl rfl

/-- C10: halt of a future controller resolves the inner future of the
controller with the halted state whenever it is still pending, and leaves
the wrapped FutureLike untouched: it is neither consumed nor aborted nor
otherwise notified. -/
theorem futureControllerHalt_resolves_halted {T : Type} (s : FutureControllerState T) :
    (futureControllerHalt s).wrapped = s.wrapped
    ∧ (s.inner = FutureState.pending →
        (futureControllerHalt s).inner = FutureState.resolved Value.halted) := by
  refine ⟨rfl, fun hp => ?_⟩
  simp [futureControllerHalt, hp, FutureState.resolve]

/-- Witness for C10 at a concrete fresh controller. -/
theorem futureControllerHalt_resolves_halted_witness :
    (futureControllerHalt
        (⟨⟨false, false⟩, FutureState.pending⟩ : FutureControllerState Nat)).wrapped
      = ⟨false, false⟩
    ∧ (futureControllerHalt
        (⟨⟨false, false⟩, FutureState.pending⟩ : FutureControllerState Nat)).inner
      = FutureState.resolved Value.halted :=
  ⟨(futureControllerHalt_resolves_halted _).1,
   (futureControllerHalt_resolves_halted _).2 rfl⟩

theorem resolve_resolve {T : Type} (s : FutureState T) (v w : Value T) :
    (s.resolve v).resolve w = s.resolve v := by
  cases s <;> rfl

theorem settled_resolve {T : Type} (s : FutureState T) (v : Value T) :
    (s.resolve v).settled = true := by
  cases s <;> rfl

/-- C4: Task halt is idempotent: a second halt leaves the task state
unchanged and produces no further observable halt events, and each call
leaves the root scope fully closed with the returned awaitable settled;
moreover halt on the future controller itself is idempotent. -/
theorem taskHalt_idempotent (t : TaskState) :
    (taskHalt (taskHalt t).1).1 = (taskHalt t).1
    ∧ (taskHalt (taskHalt t).1).2 = []
    ∧ (taskHalt t).1.scopeState = ScopeState.closedSt
    ∧ (taskHalt t).1.haltFuture.settled = true
    ∧ ∀ (T : Type) (s : FutureControllerState T),
        futureControllerHalt (futureControllerHalt s) = futureControllerHalt s := by
  obtain ⟨st, ch, f⟩ := t
  refine ⟨?_, ?_, ?_, ?_, ?_⟩
  · cases st <;> simp [taskHalt, resolve_resolve]
  · cases st <;> simp [taskHalt]
  · cases st <;> simp [taskHalt]
  · cases st <;> simp [taskHalt, settled_resolve]
  · intro T s
    simp [futureControllerHalt, resolve_resolve]

theorem drainStack_eq (s : List Nat) : drainStack s = s := by
  induction s with
  | nil => rfl
  | cons c rest ih => simp [drainStack, ih]

theorem runFrameCleanups_eq (prog : List FrameInstr) :
    ∀ stack : List Nat,
      runFrameCleanups prog stack = (registeredCleanups prog).reverse ++ stack := by
  induction prog with
  | nil => intro stack; simp [runFrameCleanups, registeredCleanups, drainStack_eq]
  | cons instr rest ih =>
    intro stack
    cases instr with
    | ret => simp [runFrameCleanups, registeredCleanups, drainStack_eq]
    | registerCleanup l =>
      simp [runFrameCleanups, registeredCleanups, ih (l :: stack)]

theorem scopeHaltOrder_eq (l : List Nat) : scopeHaltOrder l = l.reverse := by
  induction l with
  | nil => rfl
  | cons c rest ih => simp [scopeHaltOrder, ih]

/-- C1: cleanup actions registered on a Frame run in reverse (LIFO) order
of registration — in particular registering A then B and returning
yields the execution sequence B then A — and the child teardown order of
a Scope is the reverse of the child insertion order. -/
theorem cleanup_and_teardown_reverse_order :
    (∀ prog : List FrameInstr,
        runFrameCleanups prog [] = (registeredCleanups prog).reverse)
    ∧ (∀ a b : Nat,
        runFrameCleanups
          [FrameInstr.registerCleanup a, FrameInstr.registerCleanup b, FrameInstr.ret] []
          = [b, a])
    ∧ (∀ children : List Nat, scopeHaltOrder children = children.reverse) := by
  refine ⟨fun prog => ?_, fun a b => rfl, scopeHaltOrder_eq⟩
  simpa using runFrameCleanups_eq prog []

theorem selectEarliest_mem (cs : List Child) :
    ∀ best others, selectEarliest cs = some (best, others) →
      best ∈ cs ∧ ∀ x ∈ others, x ∈ cs := by
  induction cs with
  | nil => intro best others h; simp [selectEarliest] at h
  | cons c rest ih =>
    intro best others h
    simp only [selectEarliest] at h
    cases hrec : selectEarliest rest with
    | none =>
      rw [hrec] at h
      simp only [Option.some.injEq, Prod.mk.injEq] at h
      obtain ⟨rfl, rfl⟩ := h
      exact ⟨List.mem_cons_self c rest, by simp⟩
    | some p =>
      obtain ⟨b, o⟩ := p
      rw [hrec] at h
      dsimp only at h
      obtain ⟨hb, ho⟩ := ih b o hrec
      by_cases ht : b.2.time < c.2.time
      · rw [if_pos ht] at h
        simp only [Option.some.injEq, Prod.mk.injEq] at h
        obtain ⟨rfl, rfl⟩ := h
        refine ⟨List.mem_cons_of_mem c hb, ?_⟩
        intro x hx
        rcases List.mem_cons.mp hx with rfl | hx
        · exact List.mem_cons_self x rest
        · exact List.mem_cons_of_mem c (ho x hx)
      · rw [if_neg ht] at h
        simp only [Option.some.injEq, Prod.mk.injEq] at h
        obtain ⟨rfl, rfl⟩ := h
        exact ⟨List.mem_cons_self c rest, fun x hx => List.mem_cons_of_mem c hx⟩

/-- C7: a halted child outcome never propagates upward as an error: the
child failure policy escalates nothing for a halted (or returned)
child, and a scope whose children all terminate without throwing
escalates no error to its driving Frame. -/
theorem halted_never_propagates_as_error :
    (∀ T : Type, onChildExit (Value.halted : Value T) = none)
    ∧ (∀ (T : Type) (v : T), onChildExit (Value.completed v) = none)
    ∧ (∀ (fuel : Nat) (cs : List Child),
        (∀ c ∈ cs, c.2.isThrow = false) → (runScope fuel cs).2 = none) := by
  refine ⟨fun T => rfl, fun T v => rfl, fun fuel => ?_⟩
  induction fuel with
  | zero => intro cs _; rfl
  | succ n ih =>
    intro cs hcs
    cases hsel : selectEarliest cs with
    | none => simp [runScope, hsel]
    | some p =>
      obtain ⟨⟨cid, prog⟩, others⟩ := p
      obtain ⟨hbest, hothers⟩ := selectEarliest_mem cs _ _ hsel
      have hnothrow : prog.isThrow = false := hcs _ hbest
      have hrest : ∀ c ∈ others, c.2.isThrow = false :=
        fun c hc => hcs c (hothers c hc)
      cases prog with
      | sleepReturn t => simp [runScope, hsel, ih others hrest]
      | sleepHalt t => simp [runScope, hsel, ih others hrest]
      | sleepThrow t e => simp [ChildProg.isThrow] at hnothrow

/-- Witness for C7 at a concrete halting child. -/
theorem halted_never_propagates_as_error_witness :
    onChildExit (Value.halted : Value Nat) = none
    ∧ (runScope 1 [(1, ChildProg.sleepHalt 5)]).2 = none :=
  ⟨halted_never_propagates_as_error.1 Nat,
   halted_never_propagates_as_error.2.2 1 [(1, ChildProg.sleepHalt 5)] (by decide)⟩

/-- C2: when the earliest-terminating child of a scope errors with e, the
scope transitions to closing and halts every remaining sibling in
reverse insertion order, and only after all the sibling halts does the
driving Frame get injected with e; the run settles with error e, and in
particular every remaining sibling has its halt event in the trace
before the error injection. -/
theorem error_halts_siblings_before_injection
    (n : Nat) (cs : List Child) (cid t e : Nat) (others : List Child)
    (hsel : selectEarliest cs = some ((cid, ChildProg.sleepThrow t e), others)) :
    runScope (n + 1) cs
      = (ScopeEvent.childErrored cid e :: ScopeEvent.scopeClosing ::
          ((scopeHaltOrder (others.map Prod.fst)).map ScopeEvent.siblingHalted
            ++ [ScopeEvent.errorInjected e]), some e)
    ∧ ∀ p ∈ others, ScopeEvent.siblingHalted p.1 ∈ (runScope (n + 1) cs).1 := by
  have htrace :
      runScope (n + 1) cs
        = (ScopeEvent.childErrored cid e :: ScopeEvent.scopeClosing ::
            ((scopeHaltOrder (others.map Prod.fst)).map ScopeEvent.siblingHalted
              ++ [ScopeEvent.errorInjected e]), some e) := by
    simp [runScope, hsel]
  refine ⟨htrace, fun p hp => ?_⟩
  have h1 : p.1 ∈ others.map Prod.fst := List.mem_map.mpr ⟨p, hp, rfl⟩
  have h2 : p.1 ∈ scopeHaltOrder (others.map Prod.fst) := by
    rw [scopeHaltOrder_eq]
    simpa using h1
  have h3 : ScopeEvent.siblingHalted p.1
      ∈ (scopeHaltOrder (others.map Prod.fst)).map ScopeEvent.siblingHalted :=
    List.mem_map.mpr ⟨p.1, h2, rfl⟩
  rw [htrace]
  simp only [List.mem_cons, List.mem_append]
  exact Or.inr (Or.inr (Or.inl h3))

/-- Witness for C2: one child sleeps 10000 and another throws error 99
after 10; the trace halts the long sleeper before the injection and the
scope settles with error 99. -/
theorem error_halts_siblings_before_injection_witness :
    runScope 2 [(1, ChildProg.sleepReturn 10000), (2, ChildProg.sleepThrow 10 99)]
      = (ScopeEvent.childErrored 2 99 :: ScopeEvent.scopeClosing ::
          ((scopeHaltOrder ([((1 : Nat), ChildProg.sleepReturn 10000)].map Prod.fst)).map
              ScopeEvent.siblingHalted
            ++ [ScopeEvent.errorInjected 99]), some 99)
    ∧ ScopeEvent.siblingHalted 1
        ∈ (runScope 2 [(1, ChildProg.sleepReturn 10000), (2, ChildProg.sleepThrow 10 99)]).1 :=
  ⟨(error_halts_siblings_before_injection 1
      [(1, ChildProg.sleepReturn 10000), (2, ChildProg.sleepThrow 10 99)] 2 10 99
      [(1, ChildProg.sleepReturn 10000)] rfl).1,
   (error_halts_siblings_before_injection 1
      [(1, ChildProg.sleepReturn 10000), (2, ChildProg.sleepThrow 10 99)] 2 10 99
      [(1, ChildProg.sleepReturn 10000)] rfl).2
      (1, ChildProg.sleepReturn 10000) (by decide)⟩

/-- C6: next() yields an iterator result carrying a done flag and a
value, and once a call to next() has yielded a result whose done flag is
true, every subsequent call yields that same terminal result from the
same state. -/
theorem subscription_terminal_result_stable {T R : Type}
    (s s1 : SubscriptionState T R) (res : IterRes T R)
    (hn : s.next = some (res, s1)) (hd : res.done = true) :
    ∀ n : Nat, iterNext s1 n = some (res, s1) := by
  obtain ⟨buf, cl⟩ := s
  cases buf with
  | cons v rest =>
    simp only [SubscriptionState.next, Option.some.injEq, Prod.mk.injEq] at hn
    obtain ⟨rfl, -⟩ := hn
    simp [IterRes.done] at hd
  | nil =>
    cases cl with
    | none => simp [SubscriptionState.next] at hn
    | some r =>
      simp only [SubscriptionState.next, Option.some.injEq, Prod.mk.injEq] at hn
      obtain ⟨rfl, rfl⟩ := hn
      intro n
      induction n with
      | zero => simp [iterNext, SubscriptionState.next]
      | succ k ih => simpa [iterNext, SubscriptionState.next] using ih

/-- Witness for C6 at a concrete closed subscription. -/
theorem subscription_terminal_result_stable_witness :
    SubscriptionState.next (⟨[], some 5⟩ : SubscriptionState Nat Nat)
      = some (IterRes.fin 5, ⟨[], some 5⟩)
    ∧ iterNext (⟨[], some 5⟩ : SubscriptionState Nat Nat) 3
      = some (IterRes.fin 5, ⟨[], some 5⟩) :=
  ⟨rfl, subscription_terminal_result_stable ⟨[], some 5⟩ ⟨[], some 5⟩
      (IterRes.fin 5) rfl rfl 3⟩

theorem find?_map_append_val {T : Type} (l : List (Nat × List T)) (v : T) (i : Nat) :
    (l.map (fun s => (s.1, s.2 ++ [v]))).find? (fun s => s.1 == i)
      = (l.find? (fun s => s.1 == i)).map (fun s => (s.1, s.2 ++ [v])) := by
  induction l with
  | nil => rfl
  | cons a rest ih => cases h : (a.1 == i) <;> simp [List.find?, h, ih]

theorem lookup_send {T : Type} (c : Channel T) (v : T) (i : Nat) :
    (c.send v).lookupSub i = (c.lookupSub i).map (fun q => q ++ [v]) := by
  simp only [Channel.lookupSub, Channel.send]
  rw [find?_map_append_val]
  cases c.subs.find? (fun s => s.1 == i) <;> rfl

theorem find?_fresh_append {T : Type} (l : List (Nat × List T)) (n : Nat)
    (hl : ∀ s ∈ l, s.1 < n) :
    (l ++ [(n, ([] : List T))]).find? (fun s => s.1 == n) = some (n, []) := by
  induction l with
  | nil => simp [List.find?]
  | cons a rest ih =>
    have ha : (a.1 == n) = false := by
      simp [Nat.ne_of_lt (hl a (List.mem_cons_self a rest))]
    simp only [List.cons_append, List.find?, ha]
    exact ih (fun s hs => hl s (List.mem_cons_of_mem a hs))

theorem lookup_subscribe_new {T : Type} (c : Channel T) (hwf : c.WF) :
    (c.subscribe.1).lookupSub c.subscribe.2 = some [] := by
  simp [Channel.subscribe, Channel.lookupSub, find?_fresh_append c.subs c.nextSubId hwf]

theorem sendAll_lookup {T : Type} (ws : List T) :
    ∀ (c : Channel T) (i : Nat) (q : List T),
      c.lookupSub i = some q → (c.sendAll ws).lookupSub i = some (q ++ ws) := by
  induction ws with
  | nil => intro c i q hq; simpa [Channel.sendAll] using hq
  | cons w rest ih =>
    intro c i q hq
    have h1 : (c.send w).lookupSub i = some (q ++ [w]) := by
      simp [lookup_send, hq]
    have h2 := ih (c.send w) i (q ++ [w]) h1
    simpa [Channel.sendAll, List.append_assoc] using h2

theorem send_WF {T : Type} (c : Channel T) (v : T) (hwf : c.WF) : (c.send v).WF := by
  intro s hs
  simp only [Channel.send, List.mem_map] at hs
  obtain ⟨x, hx, rfl⟩ := hs
  exact hwf x hx

/-- C8: send(v) on a Channel enqueues v into the queue of every
currently-attached subscriber and into no other queue; a send on a
channel with zero subscribers is silently dropped, and a subscriber
attached after that send never receives it (its queue holds exactly the
values sent after it attached). -/
theorem channel_send_only_current_subscribers {T : Type} (c : Channel T) (v : T) :
    (∀ i q, c.lookupSub i = some q → (c.send v).lookupSub i = some (q ++ [v]))
    ∧ (∀ i, c.lookupSub i = none → (c.send v).lookupSub i = none)
    ∧ (c.subs = [] → c.send v = c)
    ∧ (c.WF → ∀ ws : List T,
        (((c.send v).subscribe.1).sendAll ws).lookupSub (c.send v).subscribe.2
          = some ws)
    ∧ (c.WF → ∀ ws : List T, v ∉ ws →
        ¬ ∃ q, (((c.send v).subscribe.1).sendAll ws).lookupSub (c.send v).subscribe.2
                  = some q
            ∧ v ∈ q) := by
  have hnew : c.WF → ∀ ws : List T,
      (((c.send v).subscribe.1).sendAll ws).lookupSub (c.send v).subscribe.2
        = some ws := by
    intro hwf ws
    have hw2 := send_WF c v hwf
    have h0 := lookup_subscribe_new (c.send v) hw2
    simpa using sendAll_lookup ws ((c.send v).subscribe.1) ((c.send v).subscribe.2) [] h0
  refine ⟨?_, ?_, ?_, hnew, ?_⟩
  · intro i q hq; simp [lookup_send, hq]
  · intro i hq; simp [lookup_send, hq]
  · intro hempty; cases c; simp_all [Channel.send]
  · intro hwf ws hv
    rintro ⟨q, hq, hvq⟩
    rw [hnew hwf ws] at hq
    obtain rfl : ws = q := by injection hq
    exact hv hvq

/-- Witness for C8 at a concrete channel, value, and later send. -/
theorem channel_send_only_current_subscribers_witness :
    ((Channel.mk 1 [(0, [])]).send 7).lookupSub 0 = some ([] ++ [7])
    ∧ ((Channel.mk 1 [(0, [])]).send 7).lookupSub 5 = none
    ∧ ((((Channel.mk 1 [(0, [])]).send 7).subscribe.1).sendAll [9]).lookupSub
        ((Channel.mk (1 : Nat) [((0 : Nat), ([] : List Nat))]).send 7).subscribe.2
        = some [9]
    ∧ ¬ ∃ q, ((((Channel.mk 1 [(0, [])]).send 7).subscribe.1).sendAll [9]).lookupSub
                ((Channel.mk (1 : Nat) [((0 : Nat), ([] : List Nat))]).send 7).subscribe.2
                = some q
          ∧ 7 ∈ q :=
  ⟨(channel_send_only_current_subscribers (Channel.mk 1 [(0, [])]) 7).1 0 [] rfl,
   (channel_send_only_current_subscribers (Channel.mk 1 [(0, [])]) 7).2.1 5 rfl,
   (channel_send_only_current_subscribers (Channel.mk 1 [(0, [])]) 7).2.2.2.1
      (by decide) [9],
   (channel_send_only_current_subscribers (Channel.mk 1 [(0, [])]) 7).2.2.2.2
      (by decide) [9] (by decide)⟩

theorem scheduleArms_fst (arms : List RaceArm) :
    ∀ h : Host, (scheduleArms arms h).1
      = ⟨h.nextId + arms.length, h.pending ++ armTimers arms h.nextId⟩ := by
  induction arms with
  | nil => intro h; cases h; simp [scheduleArms, armTimers]
  | cons a rest ih =>
    intro h
    simp only [scheduleArms, Host.setTimeout]
    rw [ih]
    simp only [armTimers, Host.mk.injEq, List.length_cons]
    constructor
    · omega
    · simp [List.append_assoc]

theorem scheduleArms_snd (arms : List RaceArm) :
    ∀ h : Host, (scheduleArms arms h).2 = armIds arms h.nextId := by
  induction arms with
  | nil => intro h; rfl
  | cons a rest ih =>
    intro h
    simp only [scheduleArms, Host.setTimeout, armIds]
    rw [ih]

theorem armIds_ge (arms : List RaceArm) : ∀ n i, i ∈ armIds arms n → n ≤ i := by
  induction arms with
  | nil => intro n i h; simp [armIds] at h
  | cons a rest ih =>
    intro n i h
    simp only [armIds, List.mem_cons] at h
    rcases h with rfl | h
    · exact Nat.le_refl _
    · exact Nat.le_of_succ_le (ih (n + 1) i h)

theorem armTimers_id_mem (arms : List RaceArm) :
    ∀ n t, t ∈ armTimers arms n → t.id ∈ armIds arms n := by
  induction arms with
  | nil => intro n t h; simp [armTimers] at h
  | cons a rest ih =>
    intro n t h
    simp only [armTimers, List.mem_cons] at h
    rcases h with rfl | h
    · simp [armIds]
    · exact List.mem_cons_of_mem n (ih (n + 1) t h)

theorem armIds_getD (arms : List RaceArm) :
    ∀ n w, w < arms.length → (armIds arms n).getD w 0 = n + w := by
  induction arms with
  | nil => intro n w h; exact absurd h (Nat.not_lt_zero w)
  | cons a rest ih =>
    intro n w hw
    cases w with
    | zero => simp [armIds]
    | succ k =>
      have hk : k < rest.length := by simpa using hw
      simp only [armIds, List.getD_cons_succ]
      rw [ih (n + 1) k hk]
      omega

theorem armIds_mem (arms : List RaceArm) :
    ∀ n w, w < arms.length → n + w ∈ armIds arms n := by
  induction arms with
  | nil => intro n w h; exact absurd h (Nat.not_lt_zero w)
  | cons a rest ih =>
    intro n w hw
    cases w with
    | zero => simp [armIds]
    | succ k =>
      have hk : k < rest.length := by simpa using hw
      have h2 := ih (n + 1) k hk
      simp only [armIds, List.mem_cons]
      right
      rw [show n + (k + 1) = (n + 1) + k by omega]
      exact h2

theorem fire_pending (h : Host) (i : Nat) :
    ((h.fire i).1).pending = h.pending.filter (fun t => t.id != i) := by
  unfold Host.fire
  by_cases hany : h.pending.any (fun t => t.id == i)
  · rw [if_pos hany]
  · rw [if_neg hany]
    simp only [Bool.not_eq_true, List.any_eq_false] at hany
    symm
    apply List.filter_eq_self.mpr
    intro a ha
    have := hany a ha
    simp_all [bne_iff_ne]

theorem cancelAll_pending (ids : List Nat) :
    ∀ h : Host, (cancelAll ids h).pending
      = h.pending.filter (fun t => decide (t.id ∉ ids)) := by
  induction ids with
  | nil => intro h; simp [cancelAll]
  | cons i rest ih =>
    intro h
    have h1 : cancelAll (i :: rest) h = cancelAll rest (h.clearTimeout i) := rfl
    rw [h1, ih]
    simp only [Host.clearTimeout]
    rw [List.filter_filter]
    apply List.filter_congr
    intro a _
    by_cases hm : a.id ∈ rest
    · simp [hm]
    · by_cases he : a.id = i
      · simp [hm, he]
      · simp [hm, he]

theorem firstMinIdx_isSome (a : RaceArm) (rest : List RaceArm) :
    ∃ w, firstMinIdx (a :: rest) = some w := by
  simp only [firstMinIdx]
  cases firstMinIdx rest with
  | none => exact ⟨0, rfl⟩
  | some j =>
    dsimp only
    by_cases h : (rest.getD j ⟨0, Value.halted⟩).time < a.time
    · exact ⟨j + 1, by rw [if_pos h]⟩
    · exact ⟨0, by rw [if_neg h]⟩

theorem firstMinIdx_none (arms : List RaceArm) (h : firstMinIdx arms = none) :
    arms = [] := by
  cases arms with
  | nil => rfl
  | cons a rest =>
    obtain ⟨w, hw⟩ := firstMinIdx_isSome a rest
    rw [hw] at h
    cases h

theorem firstMinIdx_lt (arms : List RaceArm) :
    ∀ w, firstMinIdx arms = some w → w < arms.length := by
  induction arms with
  | nil => intro w h; simp [firstMinIdx] at h
  | cons a rest ih =>
    intro w h
    simp only [firstMinIdx] at h
    cases hrec : firstMinIdx rest with
    | none =>
      rw [hrec] at h
      dsimp only at h
      obtain rfl : (0 : Nat) = w := by injection h
      simp
    | some j =>
      rw [hrec] at h
      dsimp only at h
      by_cases ht : (rest.getD j ⟨0, Value.halted⟩).time < a.time
      · rw [if_pos ht] at h
        obtain rfl : j + 1 = w := by injection h
        have := ih j hrec
        simp only [List.length_cons]
        omega
      · rw [if_neg ht] at h
        obtain rfl : (0 : Nat) = w := by injection h
        simp

theorem firstMinIdx_min (arms : List RaceArm) :
    ∀ w, firstMinIdx arms = some w →
      ∀ i, i < arms.length →
        (arms.getD w ⟨0, Value.halted⟩).time ≤ (arms.getD i ⟨0, Value.halted⟩).time := by
  induction arms with
  | nil => intro w h; simp [firstMinIdx] at h
  | cons a rest ih =>
    intro w h i hi
    simp only [firstMinIdx] at h
    cases hrec : firstMinIdx rest with
    | none =>
      have hrest := firstMinIdx_none rest hrec
      subst hrest
      rw [hrec] at h
      dsimp only at h
      obtain rfl : (0 : Nat) = w := by injection h
      obtain rfl : i = 0 := by simpa using Nat.lt_one_iff.mp (by simpa using hi)
      exact Nat.le_refl _
    | some j =>
      rw [hrec] at h
      dsimp only at h
      by_cases ht : (rest.getD j ⟨0, Value.halted⟩).time < a.time
      · rw [if_pos ht] at h
        obtain rfl : j + 1 = w := by injection h
        cases i with
        | zero => simpa using Nat.le_of_lt ht
        | succ k =>
          have hk : k < rest.length := by simpa using hi
          simpa using ih j hrec k hk
      · rw [if_neg ht] at h
        obtain rfl : (0 : Nat) = w := by injection h
        cases i with
        | zero => exact Nat.le_refl _
        | succ k =>
          have hk : k < rest.length := by simpa using hi
          have h1 : a.time ≤ (rest.getD j ⟨0, Value.halted⟩).time := Nat.le_of_not_lt ht
          have h2 := ih j hrec k hk
          simpa using Nat.le_trans h1 h2

theorem firstMinIdx_first (arms : List RaceArm) :
    ∀ w, firstMinIdx arms = some w →
      ∀ i, i < w →
        (arms.getD w ⟨0, Value.halted⟩).time < (arms.getD i ⟨0, Value.halted⟩).time := by
  induction arms with
  | nil => intro w h; simp [firstMinIdx] at h
  | cons a rest ih =>
    intro w h i hi
    simp only [firstMinIdx] at h
    cases hrec : firstMinIdx rest with
    | none =>
      rw [hrec] at h
      dsimp only at h
      obtain rfl : (0 : Nat) = w := by injection h
      exact absurd hi (Nat.not_lt_zero i)
    | some j =>
      rw [hrec] at h
      dsimp only at h
      by_cases ht : (rest.getD j ⟨0, Value.halted⟩).time < a.time
      · rw [if_pos ht] at h
        obtain rfl : j + 1 = w := by injection h
        cases i with
        | zero => simpa using ht
        | succ k =>
          have hk : k < j := by omega
          simpa using ih j hrec k hk
      · rw [if_neg ht] at h
        obtain rfl : (0 : Nat) = w := by injection h
        exact absurd hi (Nat.not_lt_zero i)

/-- C5: race spawns each arm in a fresh child scope; the first arm to
settle wins, with the first-listed arm winning ties, and its outcome
(returned or errored alike) is surfaced to the caller; halting the child
scope invokes the abort thunk of every arm, so every timer the race
scheduled (in particular the timer of every loser) is cleared from the
host. -/
theorem race_first_settler_wins_and_losers_cancelled
    (arms : List RaceArm) (h : Host) (w : Nat)
    (hwf : h.WF) (hw : firstMinIdx arms = some w) :
    (raceRun arms h).1 = some ((arms.getD w ⟨0, Value.halted⟩).out)
    ∧ (raceRun arms h).2.pending = h.pending
    ∧ (∀ i, i < arms.length →
        (arms.getD w ⟨0, Value.halted⟩).time ≤ (arms.getD i ⟨0, Value.halted⟩).time)
    ∧ (∀ i, i < w →
        (arms.getD w ⟨0, Value.halted⟩).time < (arms.getD i ⟨0, Value.halted⟩).time) := by
  refine ⟨by simp [raceRun, hw], ?_, firstMinIdx_min arms w hw, firstMinIdx_first arms w hw⟩
  have hlen := firstMinIdx_lt arms w hw
  have h2 : (raceRun arms h).2
      = cancelAll (armIds arms h.nextId)
          (((⟨h.nextId + arms.length, h.pending ++ armTimers arms h.nextId⟩ : Host).fire
              ((armIds arms h.nextId).getD w 0))).1 := by
    simp [raceRun, hw, scheduleArms_fst arms h, scheduleArms_snd arms h]
  rw [h2, cancelAll_pending, fire_pending]
  rw [List.filter_filter]
  have hidw : (armIds arms h.nextId).getD w 0 ∈ armIds arms h.nextId := by
    rw [armIds_getD arms h.nextId w hlen]
    exact armIds_mem arms h.nextId w hlen
  have hcong : ∀ t ∈ (⟨h.nextId + arms.length,
        h.pending ++ armTimers arms h.nextId⟩ : Host).pending,
      (decide (t.id ∉ armIds arms h.nextId)
          && (t.id != (armIds arms h.nextId).getD w 0))
        = decide (t.id ∉ armIds arms h.nextId) := by
    intro t _
    by_cases hm : t.id ∈ armIds arms h.nextId
    · simp [hm]
    · have hne : t.id ≠ (armIds arms h.nextId).getD w 0 := fun he => hm (he ▸ hidw)
      simp [hm]
      simpa [List.getD] using hne
  rw [List.filter_congr hcong]
  show (h.pending ++ armTimers arms h.nextId).filter
      (fun t => decide (t.id ∉ armIds arms h.nextId)) = h.pending
  rw [List.filter_append]
  have hA : h.pending.filter (fun t => decide (t.id ∉ armIds arms h.nextId))
      = h.pending := by
    apply List.filter_eq_self.mpr
    intro t ht
    simp only [decide_eq_true_eq]
    intro hmem
    exact absurd (armIds_ge arms h.nextId t.id hmem) (Nat.not_le_of_lt (hwf t ht))
  have hB : (armTimers arms h.nextId).filter
      (fun t => decide (t.id ∉ armIds arms h.nextId)) = [] := by
    apply List.filter_eq_nil_iff.mpr
    intro t ht
    simp only [decide_eq_true_eq, Decidable.not_not]
    exact armTimers_id_mem arms h.nextId t ht
  rw [hA, hB, List.append_nil]

/-- Witness for C5: racing a 10ms arm returning 1 against a 1000ms arm
returning 2 yields 1 and leaves no pending timer. -/
theorem race_first_settler_wins_and_losers_cancelled_witness :
    (raceRun [⟨10, Value.completed 1⟩, ⟨1000, Value.completed 2⟩] ⟨0, []⟩).1
      = some (Value.completed 1)
    ∧ (raceRun [⟨10, Value.completed 1⟩, ⟨1000, Value.completed 2⟩] ⟨0, []⟩).2.pending
      = (Host.mk 0 []).pending :=
  ⟨(race_first_settler_wins_and_losers_cancelled
      [⟨10, Value.completed 1⟩, ⟨1000, Value.completed 2⟩] ⟨0, []⟩ 0
      (by decide) (by decide)).1,
   (race_first_settler_wins_and_losers_cancelled
      [⟨10, Value.completed 1⟩, ⟨1000, Value.completed 2⟩] ⟨0, []⟩ 0
      (by decide) (by decide)).2.1⟩

end Effection
